import Mathlib

/-!
Verification development for the geventirc/girc IRC client library.

The Python sources are shallowly embedded:
* `lib/geventirc/message.py` — wire framing (`irc_split` / `irc_unsplit`),
  the two byte-quoting layers, and the CTCP extended-message codec.
* `girc/client.py` — the nickname negotiation state machine and shutdown.

Strings are modelled as `List Char` (`Str`), one `Char` per Python byte.
-/

namespace GeventIrc

abbrev Str := List Char

/-- `DELIM = chr(040)` — the field separator (a single space byte). -/
def DELIM : Char := ' '

/-- Python `x.split(sep, 1)` for a one-char `sep`, unpacked into two names:
returns `none` when the separator is absent (Python raises `ValueError` on
the unpack there). -/
def split1 (c : Char) : Str → Option (Str × Str)
  | [] => none
  | x :: rest =>
    if x = c then some ([], rest)
    else
      match split1 c rest with
      | none => none
      | some (p, q) => some (x :: p, q)

/-- Python `x.split(' :', 1)` (used with `DELIM + ':'`), unpacked into two
names: splits at the first occurrence of the two-byte separator, `none`
when absent. -/
def splitSC : Str → Option (Str × Str)
  | [] => none
  | [_] => none
  | x :: y :: rest =>
    if x = ' ' ∧ y = ':' then some ([], rest)
    else
      match splitSC (y :: rest) with
      | none => none
      | some (p, q) => some (x :: p, q)

/-- Python `x.split(c)` with an explicit one-char separator: keeps empty
fields, and `"".split(c) = [""]`. -/
def splitAll (c : Char) : Str → List Str
  | [] => [[]]
  | x :: rest =>
    let r := splitAll c rest
    if x = c then [] :: r
    else (x :: r.headI) :: r.tail

/-- Python `c.join(xs)` for a one-char separator. -/
def joinChar (c : Char) : List Str → Str
  | [] => []
  | [x] => x
  | x :: y :: xs => x ++ c :: joinChar c (y :: xs)

/-- `INVALID_CHARS = ["\r", "\n", "\0"]`; `is_valid_param` checks a
parameter contains none of them (note: it does not check for the
separator, and nothing in the source ever calls it). -/
def is_valid_param (param : Str) : Bool :=
  !(param.any fun c => c = '\r' ∨ c = '\n' ∨ c = '\x00')

/-- The prefix-extraction step of `irc_split`: when the line starts with
`':'` and the remainder contains the separator, split off the prefix;
otherwise leave the prefix empty and the buffer untouched (the source's
`except ValueError: pass`). -/
def extract_pfx (data : Str) : Str × Str :=
  match data with
  | ':' :: rest =>
    match split1 DELIM rest with
    | some (p, b) => (p, b)
    | none => ([], data)
  | _ => ([], data)

/-- `irc_split(data)` from message.py.  Returns `none` exactly when the
function raises `ProtocolViolationError` (no command token).  Mirrors the
source line by line: optional `:`-led prefix split once on `DELIM`
(left in place on failure), command split once on `DELIM` (error on
failure), trailing split once on `DELIM + ':'` (absent on failure),
remaining buffer split on `DELIM`, trailing appended last. -/
def irc_split (data : Str) : Option (Str × Str × List Str) :=
  match split1 DELIM (extract_pfx data).2 with
  | none => none
  | some (command, buf) =>
    match splitSC buf with
    | some (buf2, trailing) =>
      some ((extract_pfx data).1, command, splitAll DELIM buf2 ++ [trailing])
    | none => some ((extract_pfx data).1, command, splitAll DELIM buf)

/-- `irc_unsplit(prefix, command, params)` from message.py, for the list
form of `params` (`prefix=None` is `none`; the `params=None` and
`params` string branches of the source are not exercised by any claim).
Note the source appends `prefix + DELIM` without a leading `:`, drops an
empty non-trailing block, and renders the last parameter as
`':' + trailing` only when it is non-empty. -/
def irc_unsplit (pfx : Option Str) (command : Str) (params : List Str) : Str :=
  let base : Str := (match pfx with
    | some p => p ++ [DELIM]
    | none => []) ++ command ++ [DELIM]
  match params with
  | [] => base
  | _ :: _ =>
    let rparams := params.dropLast
    let trailing := (params.getLast?).getD []
    base ++ (if rparams.isEmpty then [] else joinChar DELIM rparams ++ [DELIM])
         ++ (if trailing.isEmpty then [] else ':' :: trailing)

/-- `Message.encode`: `irc_unsplit(...) + "\r\n"`. -/
def Message_encode (pfx : Option Str) (command : Str) (params : List Str) : Str :=
  irc_unsplit pfx command params ++ ['\r', '\n']

/-! ## Quoting layers

`X_DELIM = '\x01'`, `X_QUOTE = '\x86'`, `M_QUOTE = '\x10'`.

`_quote(string, table)` walks the string keeping a cursor and, for every
position `pos >= 1` whose character is a table key, emits the pending
slice plus the two-byte escape; the character at position 0 is *skipped*
(`if pos is 0: continue`) and therefore never escaped.  Per character
this is: copy the head verbatim, then map each later character through
the table.

`_dequote(string, table)` scans adjacent pairs `(string[pos-1],
string[pos])` for `pos >= 1`; on a key hit it emits
`string[cursor:pos] + table[pair]` and sets `cursor = pos + 1` — the
slice still *includes* position `pos-1`, so the escape byte is kept and
only the second byte of the pair is replaced by the decoded byte.  Per
character: copy the head verbatim, then each later character `c` with
predecessor `p` becomes `table[(p, c)]` when that pair is a key, else
`c` itself. -/

/-- `_low_level_quote_table` as a lookup function. -/
def low_quote_entry (c : Char) : Option Str :=
  if c = '\x00' then some ['\x10', '0']
  else if c = '\n' then some ['\x10', 'n']
  else if c = '\r' then some ['\x10', 'r']
  else if c = '\x10' then some ['\x10', '\x10']
  else none

/-- `_ctcp_quote_table` as a lookup function. -/
def ctcp_quote_entry (c : Char) : Option Str :=
  if c = '\x01' then some ['\x86', 'a']
  else if c = '\x86' then some ['\x86', '\x86']
  else none

/-- `_low_level_dequote_table` (the inverted pair table) as a lookup on
`(previous char, current char)`. -/
def low_dequote_entry (p c : Char) : Option Char :=
  if p = '\x10' then
    if c = '0' then some '\x00'
    else if c = 'n' then some '\n'
    else if c = 'r' then some '\r'
    else if c = '\x10' then some '\x10'
    else none
  else none

/-- `_ctcp_dequote_table` as a lookup on `(previous char, current char)`. -/
def ctcp_dequote_entry (p c : Char) : Option Char :=
  if p = '\x86' then
    if c = 'a' then some '\x01'
    else if c = '\x86' then some '\x86'
    else none
  else none

/-- The `pos >= 1` portion of `_quote`: each character in a table is
replaced by its escape sequence. -/
def quoteRest (table : Char → Option Str) : Str → Str
  | [] => []
  | c :: rest =>
    (match table c with
     | some e => e
     | none => [c]) ++ quoteRest table rest

/-- `_quote(string, table)`: the character at position 0 is copied
verbatim (the loop `continue`s at `pos 0`), the rest are escaped. -/
def pyQuote (table : Char → Option Str) : Str → Str
  | [] => []
  | c :: rest => c :: quoteRest table rest

/-- The `pos >= 1` portion of `_dequote`: each character whose pair with
its predecessor is a table key is replaced by the decoded byte (the
predecessor itself is kept — the source slice `string[cursor:pos]`
includes position `pos-1`). -/
def dequoteRest (table : Char → Char → Option Char) : Char → Str → Str
  | _, [] => []
  | p, c :: rest =>
    (match table p c with
     | some d => d
     | none => c) :: dequoteRest table c rest

/-- `_dequote(string, table)`: position 0 is copied verbatim and seeds
the pair scan. -/
def pyDequote (table : Char → Char → Option Char) : Str → Str
  | [] => []
  | c :: rest => c :: dequoteRest table c rest

def low_level_quote (s : Str) : Str := pyQuote low_quote_entry s

def low_level_dequote (s : Str) : Str := pyDequote low_dequote_entry s

def ctcp_quote (s : Str) : Str := pyQuote ctcp_quote_entry s

def ctcp_dequote (s : Str) : Str := pyDequote ctcp_dequote_entry s

/-! ## CTCP extended-message codec -/

/-- The body rendered for one `(tag, data)` pair in `CTCPMessage.encode`:
`tag + DELIM + data` when `data` is a non-empty string, else `tag` alone
(`if data:` is false for both `None` and `''`).  The non-string `data`
branch (joining a sequence) is not exercised by any claim. -/
def ctcp_body (pd : Str × Option Str) : Str :=
  match pd.2 with
  | some d => if d.isEmpty then pd.1 else pd.1 ++ DELIM :: d
  | none => pd.1

/-- The `ctcp_buf` accumulated by `CTCPMessage.encode`: each body is
ctcp-quoted and wrapped between `X_DELIM` bytes, in order. -/
def ctcp_wrap (pairs : List (Str × Option Str)) : Str :=
  pairs.foldr (fun pd acc => '\x01' :: ctcp_quote (ctcp_body pd) ++ '\x01' :: acc) []

/-- `CTCPMessage.encode`: appends the low-level-quoted `ctcp_buf` as one
extra (trailing) parameter and frames via `irc_unsplit` + `"\r\n"`. -/
def CTCPMessage_encode (pfx : Option Str) (command : Str) (params : List Str)
    (ctcp_params : List (Str × Option Str)) : Str :=
  irc_unsplit pfx command (params ++ [low_level_quote (ctcp_wrap ctcp_params)]) ++ ['\r', '\n']

/-- The alternating pop loop of `CTCPMessage.decode`: chunks at even
offsets are plain text (split on `DELIM`, empty tokens dropped), chunks
at odd offsets are extended bodies (ctcp-dequoted, split once on `DELIM`
into tag and optional data); empty chunks contribute nothing. -/
def ctcp_loop : Bool → List Str → List Str × List (Str × Option Str)
  | _, [] => ([], [])
  | odd, msg :: rest =>
    let r := ctcp_loop (!odd) rest
    if odd then
      if msg.isEmpty then r
      else
        let d := ctcp_dequote msg
        let pair : Str × Option Str :=
          match split1 DELIM d with
          | some (tag, dat) => (tag, some dat)
          | none => (d, none)
        (r.1, pair :: r.2)
    else
      if msg.isEmpty then r
      else ((splitAll DELIM msg).filter (fun x => !x.isEmpty) ++ r.1, r.2)

/-- `CTCPMessage.decode`: frame-split the line, rejoin the parameters
with `DELIM`, low-level dequote, split on `X_DELIM` and run the
alternating loop.  (`params` from `irc_split` is always a non-empty
list, so the source's `if params:` guard is always taken; it is kept for
faithfulness.) -/
def CTCPMessage_decode (data : Str) :
    Option (Str × Str × List Str × List (Str × Option Str)) :=
  (irc_split data).map fun pcp =>
    if pcp.2.2.isEmpty then (pcp.1, pcp.2.1, [], [])
    else
      (pcp.1, pcp.2.1,
        (ctcp_loop false
          (splitAll '\x01' (low_level_dequote (joinChar DELIM pcp.2.2)))).1,
        (ctcp_loop false
          (splitAll '\x01' (low_level_dequote (joinChar DELIM pcp.2.2)))).2)

/-! ## girc/client.py — nickname state machine and shutdown

The nick fields: `_nick : Option Str` (what we think the server thinks our
nick is; a string in practice, `Option` so that Python `None` comparisons
are expressible) and `_new_nick : Option Str` (`None` unless a change is
in flight).  Concurrent effects (handlers running while the setter waits
in `wait_for_messages`, or while `nick_in_use` blocks on the lock) are
passed in explicitly as a state transformer. -/

structure ClientState where
  _nick : Option Str
  _new_nick : Option Str
  deriving DecidableEq, Repr

/-- Python truthiness of `self._new_nick`: a non-`None`, non-empty
string. -/
def truthy : Option Str → Bool
  | none => false
  | some s => !s.isEmpty

/-- The `nick` property setter (`client.py` lines 143-163), run under
`self._nick_lock`.  `mid` is the state transformation performed by
concurrently running handlers (e.g. `forced_nick_change`) between
setting `self._new_nick = new_nick` and the end of
`wait_for_messages()`; `raises` says whether `nick_msg.send()` /
`wait_for_messages()` raised (in which case `quit(...)` is requested and
the exception re-raised).  On the normal path `self._nick =
self._new_nick` is assigned, and the `finally` block sets
`self._new_nick = None` on every path.  Returns (exception raised?,
final state). -/
def nick_set (raises : Bool) (mid : ClientState → ClientState)
    (s : ClientState) (new_nick : Str) : Bool × ClientState :=
  let s2 := mid { s with _new_nick := some new_nick }
  if raises then (true, { s2 with _new_nick := none })
  else (false, { _nick := s2._new_nick, _new_nick := none })

/-- `Client.matches_nick(value)`: `value in (self._nick, self._new_nick)`. -/
def matches_nick (v : Option Str) (s : ClientState) : Bool :=
  v = s._nick ∨ v = s._new_nick

/-- Modelled from the spec: `increment_nick` is referenced by the
`nick_in_use` handler (`self.increment_nick(self._nick)`) but its
definition is not among the provided sources.  The spec describes it as
"deterministically derive the next candidate name (an incrementing
suffix scheme)" with the scenario `"bob"` → `"bob1"`: we model it as
splitting off any trailing decimal suffix, incrementing it (an absent
suffix counts as zero), and re-appending. -/
def increment_nick (n : Str) : Str :=
  let digits := (n.reverse.takeWhile Char.isDigit).reverse
  let stem := (n.reverse.dropWhile Char.isDigit).reverse
  let val := digits.foldl (fun acc c => 10 * acc + (c.toNat - '0'.toNat)) 0
  stem ++ (Nat.toDigits 10 (val + 1))

/-- The `nick_in_use` handler (`client.py` lines 99-118) for a rejection
naming `bad`.  `lockWait` is the state transformation performed while
the handler blocks acquiring `self._nick_lock` (typically the in-flight
setter completing).  Returns the resulting state together with
`some n'` when the handler reaches `self.nick = self.increment_nick(self._nick)`,
i.e. initiates a rename to `n'` (the setter invocation itself is
modelled separately by `nick_set`). -/
def nick_in_use (bad : Str) (lockWait : ClientState → ClientState)
    (s : ClientState) : ClientState × Option Str :=
  if truthy s._new_nick then
    -- changing: ignore unless it names the new nick, else cancel and wait
    if some bad ≠ s._new_nick then (s, none)
    else
      let s2 := lockWait { s with _new_nick := s._nick }
      if some bad ≠ s2._nick then (s2, none)
      else (s2, some (increment_nick bad))
  else
    -- stable: ignore unless it names our current nick
    if some bad ≠ s._nick then (s, none)
    else
      let s2 := lockWait s
      if some bad ≠ s2._nick then (s2, none)
      else (s2, some (increment_nick bad))

/-- The shutdown-relevant state of a client: the `stopped` flag, the
registered stop handlers (a Python `set`, identified here by ids), a log
of handler invocations, and the cleanup effects of `_stop`. -/
structure StopState where
  stopped : Bool
  stop_handlers : List Nat
  invoked : List Nat
  group_killed : Bool
  refs_cleared : Bool
  queues_cleared : Bool
  deriving DecidableEq, Repr

/-- `Client.stop` (`client.py` lines 280-304): returns immediately when
`self.stopped` is already set; otherwise sets it and runs `_stop` (kill
the group, invoke every stop handler, clear back references, drop the
queues). -/
def Client_stop (s : StopState) : StopState :=
  if s.stopped then s
  else
    { s with
      stopped := true
      group_killed := true
      invoked := s.invoked ++ s.stop_handlers
      refs_cleared := true
      queues_cleared := true }

/-! ## Lemmas about the splitting primitives -/

theorem split1_of_not_mem (c : Char) (s : Str) (h : c ∉ s) :
    split1 c s = none := by
  induction s with
  | nil => rfl
  | cons x rest ih =>
    simp only [List.mem_cons, not_or] at h
    have hxc : ¬x = c := fun hx => h.1 hx.symm
    simp only [split1, if_neg hxc, ih h.2]

theorem split1_append (c : Char) (a b : Str) (h : c ∉ a) :
    split1 c (a ++ c :: b) = some (a, b) := by
  induction a with
  | nil => simp [split1]
  | cons x a ih =>
    simp only [List.mem_cons, not_or] at h
    have hxc : ¬x = c := fun hx => h.1 hx.symm
    simp only [List.cons_append, split1, if_neg hxc, List.append_eq, ih h.2]

theorem splitAll_of_not_mem (c : Char) (s : Str) (h : c ∉ s) :
    splitAll c s = [s] := by
  induction s with
  | nil => rfl
  | cons x rest ih =>
    simp only [List.mem_cons, not_or] at h
    have hxc : ¬x = c := fun hx => h.1 hx.symm
    simp only [splitAll, if_neg hxc, ih h.2]
    rfl

theorem splitAll_append (c : Char) (a b : Str) (h : c ∉ a) :
    splitAll c (a ++ c :: b) = a :: splitAll c b := by
  induction a with
  | nil => simp [splitAll]
  | cons x a ih =>
    simp only [List.mem_cons, not_or] at h
    have hxc : ¬x = c := fun hx => h.1 hx.symm
    simp only [List.cons_append, splitAll, if_neg hxc, List.append_eq, ih h.2]
    rfl

theorem splitAll_join (c : Char) (L : List Str) (hne : L ≠ [])
    (h : ∀ x ∈ L, c ∉ x) : splitAll c (joinChar c L) = L := by
  induction L with
  | nil => exact absurd rfl hne
  | cons x L ih =>
    cases L with
    | nil => exact splitAll_of_not_mem c x (h x (List.mem_cons_self x []))
    | cons y L' =>
      have hx : c ∉ x := h x (List.mem_cons_self x _)
      show splitAll c (x ++ c :: joinChar c (y :: L')) = x :: y :: L'
      rw [splitAll_append c x _ hx,
        ih (by simp) (fun z hz => h z (List.mem_cons_of_mem x hz))]

theorem joinChar_concat (c : Char) (L : List Str) (x : Str) (hne : L ≠ []) :
    joinChar c (L ++ [x]) = joinChar c L ++ c :: x := by
  induction L with
  | nil => exact absurd rfl hne
  | cons a L ih =>
    cases L with
    | nil => rfl
    | cons b L' =>
      show a ++ c :: joinChar c ((b :: L') ++ [x]) =
        (a ++ c :: joinChar c (b :: L')) ++ c :: x
      rw [ih (by simp)]
      simp

/-- `noSC s` holds when the two-byte separator `" :"` does not occur in
`s`. -/
def noSC : Str → Bool
  | [] => true
  | [_] => true
  | x :: y :: rest => !(x = ' ' && y = ':') && noSC (y :: rest)

theorem noSC_of_not_mem (s : Str) (h : ' ' ∉ s) : noSC s = true := by
  induction s with
  | nil => rfl
  | cons x rest ih =>
    simp only [List.mem_cons, not_or] at h
    cases rest with
    | nil => rfl
    | cons y r =>
      simp only [noSC, Bool.and_eq_true, Bool.not_eq_true', Bool.and_eq_false_iff]
      exact ⟨Or.inl (by simpa using fun hx => h.1 hx.symm),
        ih (by simpa using h.2)⟩

theorem noSC_cons (x : Char) (s : Str) (hs : noSC s = true)
    (hpair : ¬(x = ' ' ∧ s.head? = some ':')) : noSC (x :: s) = true := by
  cases s with
  | nil => rfl
  | cons y r =>
    simp only [noSC, Bool.and_eq_true, Bool.not_eq_true', Bool.and_eq_false_iff]
    refine ⟨?_, hs⟩
    by_cases hx : x = ' '
    · exact Or.inr (by simpa [hx] using fun hy => hpair ⟨hx, by simp [hy]⟩)
    · exact Or.inl (by simpa using hx)

theorem noSC_pair (x y : Char) (s : Str) (h : noSC (x :: y :: s) = true) :
    ¬(x = ' ' ∧ y = ':') ∧ noSC (y :: s) = true := by
  simp only [noSC, Bool.and_eq_true, Bool.not_eq_true',
    Bool.and_eq_false_iff] at h
  refine ⟨?_, h.2⟩
  rcases h.1 with h1 | h1
  · exact fun hp => absurd hp.1 (by simpa using h1)
  · exact fun hp => absurd hp.2 (by simpa using h1)

theorem noSC_append (a b : Str) (ha : noSC a = true) (hb : noSC b = true)
    (hbd : ¬(a.getLast? = some ' ' ∧ b.head? = some ':')) :
    noSC (a ++ b) = true := by
  induction a with
  | nil => simpa using hb
  | cons x a ih =>
    cases a with
    | nil =>
      simp only [List.nil_append, List.singleton_append]
      exact noSC_cons x b hb (fun hp => hbd ⟨by simp [hp.1], hp.2⟩)
    | cons y a' =>
      obtain ⟨hxy, h1⟩ := noSC_pair x y a' ha
      have h2 : noSC ((y :: a') ++ b) = true := by
        refine ih h1 ?_
        intro hp
        refine hbd ⟨?_, hp.2⟩
        have : (x :: y :: a').getLast? = (y :: a').getLast? :=
          List.getLast?_cons_cons ..
        rw [this, hp.1]
      show noSC (x :: ((y :: a') ++ b)) = true
      refine noSC_cons x _ h2 ?_
      intro hp
      have hy : ((y :: a') ++ b).head? = some y := rfl
      rw [hy] at hp
      have : y = ':' := by injection hp.2
      exact hxy ⟨hp.1, this⟩

theorem splitSC_of_noSC (s : Str) (h : noSC s = true) : splitSC s = none := by
  induction s with
  | nil => rfl
  | cons x rest ih =>
    cases rest with
    | nil => rfl
    | cons y r =>
      obtain ⟨hxy, h2⟩ := noSC_pair x y r h
      simp only [splitSC, if_neg hxy, ih h2]

theorem splitSC_append (a b : Str) (h : noSC a = true) :
    splitSC (a ++ ' ' :: ':' :: b) = some (a, b) := by
  induction a with
  | nil => simp [splitSC]
  | cons x a ih =>
    cases a with
    | nil =>
      have hns : ¬(x = ' ' ∧ ' ' = ':') := by simp
      show splitSC (x :: ' ' :: ':' :: b) = some ([x], b)
      simp [splitSC, hns]
    | cons y a' =>
      obtain ⟨hxy, h1⟩ := noSC_pair x y a' h
      have hrec := ih h1
      rw [List.cons_append] at hrec
      simp only [List.cons_append, splitSC, if_neg hxy, List.append_eq, hrec]

theorem getLast?_ne_of_not_mem (s : Str) (c : Char) (h : c ∉ s) :
    s.getLast? ≠ some c := by
  intro hl
  exact h (List.mem_of_mem_getLast? hl)

theorem joinChar_head_ne (c : Char) (y : Str) (L' : List Str)
    (hy : y.head? ≠ some ':') (hc : c ≠ ':') :
    (joinChar c (y :: L')).head? ≠ some ':' := by
  cases L' with
  | nil => exact hy
  | cons z L'' =>
    show (y ++ c :: joinChar c (z :: L'')).head? ≠ some ':'
    cases y with
    | nil =>
      intro h
      exact hc (by injection h)
    | cons a ys =>
      intro h
      exact hy (by simpa using h)

theorem noSC_join (L : List Str) (hsp : ∀ x ∈ L, ' ' ∉ x)
    (hcol : ∀ x ∈ L.tail, x.head? ≠ some ':') :
    noSC (joinChar DELIM L) = true := by
  induction L with
  | nil => rfl
  | cons x L ih =>
    cases L with
    | nil => exact noSC_of_not_mem x (hsp x (List.mem_cons_self x []))
    | cons y L' =>
      show noSC (x ++ DELIM :: joinChar DELIM (y :: L')) = true
      have hx : ' ' ∉ x := hsp x (List.mem_cons_self x _)
      have hyh : y.head? ≠ some ':' := hcol y (List.mem_cons_self y L')
      have hJ : noSC (joinChar DELIM (y :: L')) = true := by
        refine ih (fun z hz => hsp z (List.mem_cons_of_mem x hz)) ?_
        intro z hz
        exact hcol z (List.mem_cons_of_mem y hz)
      refine noSC_append x _ (noSC_of_not_mem x hx) ?_ ?_
      · refine noSC_cons DELIM _ hJ ?_
        intro hp
        exact joinChar_head_ne DELIM y L' hyh (by decide) hp.2
      · intro hp
        exact getLast?_ne_of_not_mem x ' ' hx hp.1

/-- The line `irc_unsplit` builds for a parameter list with at least one
non-trailing parameter: command, the space-joined non-trailing
parameters, then `" :" + trailing` when the trailing parameter is
non-empty (nothing otherwise). -/
theorem unsplit_concat_pos (cmd : Str) (rs : List Str) (t : Str)
    (hrs : rs ≠ []) (ht : t ≠ []) :
    irc_unsplit none cmd (rs ++ [t]) =
      cmd ++ ' ' :: (joinChar DELIM rs ++ ' ' :: ':' :: t) := by
  cases rs with
  | nil => exact absurd rfl hrs
  | cons r rs' =>
    show irc_unsplit none cmd ((r :: rs') ++ [t]) = _
    simp only [irc_unsplit, List.cons_append]
    simp only [← List.cons_append, List.dropLast_concat, List.getLast?_concat,
      Option.getD_some, DELIM]
    have htf : t.isEmpty = false := by simpa [List.isEmpty_iff] using ht
    simp [htf, List.append_assoc]

theorem unsplit_concat_nil (cmd : Str) (rs : List Str) (hrs : rs ≠ []) :
    irc_unsplit none cmd (rs ++ [[]]) =
      cmd ++ ' ' :: (joinChar DELIM rs ++ [' ']) := by
  cases rs with
  | nil => exact absurd rfl hrs
  | cons r rs' =>
    show irc_unsplit none cmd ((r :: rs') ++ [[]]) = _
    simp only [irc_unsplit, List.cons_append]
    simp only [← List.cons_append, List.dropLast_concat, List.getLast?_concat,
      Option.getD_some, DELIM]
    simp [List.append_assoc]

theorem extract_pfx_id (L : Str) (h : L.head? ≠ some ':') :
    extract_pfx L = ([], L) := by
  cases L with
  | nil => rfl
  | cons c rest =>
    have hc : c ≠ ':' := fun hc => h (by simp [hc])
    simp only [extract_pfx]
    split
    · next heq =>
      exact absurd (by injection heq) hc
    · rfl

/-- Stepping lemma: when the line does not begin with `':'`, `irc_split`
leaves the prefix empty and the buffer untouched. -/
theorem irc_split_skipPfx (L : Str) (h : L.head? ≠ some ':') :
    irc_split L =
      match split1 DELIM L with
      | none => none
      | some (command, buf) =>
        match splitSC buf with
        | some (buf2, trailing) =>
          some ([], command, splitAll DELIM buf2 ++ [trailing])
        | none => some ([], command, splitAll DELIM buf) := by
  rw [irc_split, extract_pfx_id L h]

/-- Round trip of the frame codec at the `irc_split` / `irc_unsplit`
level, for a message with no prefix, a space-free command not starting
with `':'`, at least two parameters, space-free non-trailing parameters
of which none after the first starts with `':'`. -/
theorem irc_split_unsplit (cmd : Str) (rs : List Str) (t : Str)
    (hc1 : ' ' ∉ cmd) (hc2 : cmd.head? ≠ some ':') (hrs : rs ≠ [])
    (hsp : ∀ p ∈ rs, ' ' ∉ p)
    (hcol : ∀ p ∈ rs.tail, p.head? ≠ some ':') :
    irc_split (irc_unsplit none cmd (rs ++ [t])) = some ([], cmd, rs ++ [t]) := by
  have hJ : noSC (joinChar DELIM rs) = true := noSC_join rs hsp hcol
  have hhead : ∀ R : Str, (cmd ++ ' ' :: R).head? ≠ some ':' := by
    intro R
    cases cmd with
    | nil => simp
    | cons c cs =>
      intro hh
      exact hc2 (by simpa using hh)
  by_cases htn : t = []
  · subst htn
    rw [unsplit_concat_nil cmd rs hrs, irc_split_skipPfx _ (hhead _)]
    simp only [DELIM]
    rw [split1_append ' ' cmd _ hc1]
    dsimp only
    have hnsc : noSC (joinChar ' ' rs ++ [' ']) = true := by
      refine noSC_append _ _ (by simpa [DELIM] using hJ) rfl ?_
      intro hp
      simpa using hp.2
    rw [splitSC_of_noSC _ hnsc]
    show some ([], cmd, splitAll ' ' (joinChar ' ' rs ++ [' '])) =
      some ([], cmd, rs ++ [[]])
    have hjoin : joinChar ' ' rs ++ [' '] = joinChar ' ' (rs ++ [[]]) := by
      rw [joinChar_concat ' ' rs [] hrs]
    rw [hjoin, splitAll_join ' ' (rs ++ [[]]) (by simp) ?_]
    intro x hx
    rcases List.mem_append.mp hx with h | h
    · exact hsp x h
    · simp only [List.mem_singleton] at h
      simp [h]
  · rw [unsplit_concat_pos cmd rs t hrs htn, irc_split_skipPfx _ (hhead _)]
    simp only [DELIM]
    rw [split1_append ' ' cmd _ hc1]
    dsimp only
    rw [splitSC_append _ _ (by simpa [DELIM] using hJ)]
    show some ([], cmd, splitAll ' ' (joinChar ' ' rs) ++ [t]) =
      some ([], cmd, rs ++ [t])
    rw [splitAll_join ' ' rs hrs hsp]

/-! ## Quoting identity lemmas and CTCP decode machinery -/

theorem quoteRest_id (table : Char → Option Str) (s : Str)
    (h : ∀ c ∈ s, table c = none) : quoteRest table s = s := by
  induction s with
  | nil => rfl
  | cons c rest ih =>
    simp only [quoteRest, h c (List.mem_cons_self c rest)]
    rw [ih (fun x hx => h x (List.mem_cons_of_mem c hx))]
    rfl

theorem pyQuote_id (table : Char → Option Str) (s : Str)
    (h : ∀ c ∈ s, table c = none) : pyQuote table s = s := by
  cases s with
  | nil => rfl
  | cons c rest =>
    simp only [pyQuote]
    rw [quoteRest_id table rest (fun x hx => h x (List.mem_cons_of_mem c hx))]

theorem dequoteRest_id (table : Char → Char → Option Char) (e : Char)
    (he : ∀ p c, p ≠ e → table p c = none) :
    ∀ (prev : Char) (s : Str), prev ≠ e → (∀ c ∈ s, c ≠ e) →
      dequoteRest table prev s = s := by
  intro prev s
  induction s generalizing prev with
  | nil => intro _ _; rfl
  | cons c rest ih =>
    intro hp hs
    simp only [dequoteRest, he prev c hp]
    rw [ih c (hs c (List.mem_cons_self c rest))
      (fun x hx => hs x (List.mem_cons_of_mem c hx))]

theorem pyDequote_id (table : Char → Char → Option Char) (e : Char)
    (he : ∀ p c, p ≠ e → table p c = none) (s : Str)
    (h : ∀ c ∈ s, c ≠ e) : pyDequote table s = s := by
  cases s with
  | nil => rfl
  | cons c rest =>
    simp only [pyDequote]
    rw [dequoteRest_id table e he c rest (h c (List.mem_cons_self c rest))
      (fun x hx => h x (List.mem_cons_of_mem c hx))]

theorem low_quote_entry_none (c : Char)
    (h : c ≠ '\x00' ∧ c ≠ '\n' ∧ c ≠ '\r' ∧ c ≠ '\x10') :
    low_quote_entry c = none := by
  simp [low_quote_entry, h.1, h.2.1, h.2.2.1, h.2.2.2]

theorem ctcp_quote_entry_none (c : Char) (h : c ≠ '\x01' ∧ c ≠ '\x86') :
    ctcp_quote_entry c = none := by
  simp [ctcp_quote_entry, h.1, h.2]

theorem low_dequote_entry_none (p c : Char) (hp : p ≠ '\x10') :
    low_dequote_entry p c = none := by
  simp [low_dequote_entry, hp]

theorem ctcp_dequote_entry_none (p c : Char) (hp : p ≠ '\x86') :
    ctcp_dequote_entry p c = none := by
  simp [ctcp_dequote_entry, hp]

/-- Characters of a joined list come from the separator or the parts. -/
theorem mem_joinChar (c sep : Char) (L : List Str) (h : c ∈ joinChar sep L) :
    c = sep ∨ ∃ x ∈ L, c ∈ x := by
  induction L with
  | nil => cases h
  | cons x L ih =>
    cases L with
    | nil => exact Or.inr ⟨x, List.mem_cons_self x [], h⟩
    | cons y L' =>
      rcases List.mem_append.mp h with hx | hy
      · exact Or.inr ⟨x, List.mem_cons_self x _, hx⟩
      · rcases List.mem_cons.mp hy with hc | hc
        · exact Or.inl hc
        · rcases ih hc with h1 | ⟨z, hz, hcz⟩
          · exact Or.inl h1
          · exact Or.inr ⟨z, List.mem_cons_of_mem x hz, hcz⟩

/-- Characters of a CTCP body come from the tag, the separator or the
data. -/
theorem mem_ctcp_body (c : Char) (pd : Str × Option Str)
    (h : c ∈ ctcp_body pd) :
    c ∈ pd.1 ∨ c = ' ' ∨ ∃ d, pd.2 = some d ∧ c ∈ d := by
  rcases pd with ⟨tag, d⟩
  cases d with
  | none => exact Or.inl h
  | some dd =>
    simp only [ctcp_body] at h
    by_cases hdd : dd.isEmpty
    · rw [if_pos hdd] at h
      exact Or.inl h
    · rw [if_neg hdd] at h
      rcases List.mem_append.mp h with h1 | h1
      · exact Or.inl h1
      · rcases List.mem_cons.mp h1 with h2 | h2
        · exact Or.inr (Or.inl h2)
        · exact Or.inr (Or.inr ⟨dd, rfl, h2⟩)

/-- Characters of `ctcp_wrap` come from the delimiter or a quoted body. -/
theorem mem_ctcp_wrap (c : Char) (ps : List (Str × Option Str))
    (h : c ∈ ctcp_wrap ps) :
    c = '\x01' ∨ ∃ pd ∈ ps, c ∈ ctcp_quote (ctcp_body pd) := by
  induction ps with
  | nil => cases h
  | cons pd rest ih =>
    have h' : c ∈ '\x01' :: (ctcp_quote (ctcp_body pd) ++ '\x01' :: ctcp_wrap rest) := h
    rcases List.mem_cons.mp h' with h1 | h1
    · exact Or.inl h1
    · rcases List.mem_append.mp h1 with h2 | h2
      · exact Or.inr ⟨pd, List.mem_cons_self pd rest, h2⟩
      · rcases List.mem_cons.mp h2 with h3 | h3
        · exact Or.inl h3
        · rcases ih h3 with h4 | ⟨q, hq, hcq⟩
          · exact Or.inl h4
          · exact Or.inr ⟨q, List.mem_cons_of_mem pd hq, hcq⟩

/-- The chunk list obtained by splitting `ctcp_wrap ps` on the
delimiter: each quoted body followed by an empty chunk. -/
def ctcp_chunks (ps : List (Str × Option Str)) : List Str :=
  ps.foldr (fun pd acc => ctcp_quote (ctcp_body pd) :: [] :: acc) []

theorem splitAll_wrap (u : Str) (ps : List (Str × Option Str))
    (hu : '\x01' ∉ u)
    (hm : ∀ pd ∈ ps, '\x01' ∉ ctcp_quote (ctcp_body pd)) :
    splitAll '\x01' (u ++ ctcp_wrap ps) = u :: ctcp_chunks ps := by
  induction ps generalizing u with
  | nil =>
    show splitAll '\x01' (u ++ []) = [u]
    rw [List.append_nil]
    exact splitAll_of_not_mem _ u hu
  | cons pd rest ih =>
    show splitAll '\x01'
      (u ++ '\x01' :: (ctcp_quote (ctcp_body pd) ++ '\x01' :: ctcp_wrap rest)) = _
    rw [splitAll_append _ u _ hu,
      splitAll_append _ _ _ (hm pd (List.mem_cons_self pd rest))]
    have := ih [] (by simp) (fun q hq => hm q (List.mem_cons_of_mem pd hq))
    rw [List.nil_append] at this
    rw [this]
    rfl

/-- Side conditions on an extended-message tag under which the quoting
layers act as the identity and decoding recovers it: non-empty, free of
the field separator, both escape bytes, the extended-message delimiter
and the transport-quoted control bytes. -/
def goodTag (tag : Str) : Prop :=
  tag ≠ [] ∧ ' ' ∉ tag ∧ '\x01' ∉ tag ∧ '\x86' ∉ tag ∧ '\x10' ∉ tag ∧
    '\x00' ∉ tag ∧ '\r' ∉ tag ∧ '\n' ∉ tag

/-- Side conditions on extended-message data: absent, or non-empty and
free of the escape bytes, the delimiter and the transport-quoted control
bytes (the field separator is allowed — decoding splits only once). -/
def goodData : Option Str → Prop
  | none => True
  | some d => d ≠ [] ∧ '\x01' ∉ d ∧ '\x86' ∉ d ∧ '\x10' ∉ d ∧
      '\x00' ∉ d ∧ '\r' ∉ d ∧ '\n' ∉ d

def goodPair (pd : Str × Option Str) : Prop := goodTag pd.1 ∧ goodData pd.2

instance (tag : Str) : Decidable (goodTag tag) :=
  inferInstanceAs (Decidable (tag ≠ [] ∧ ' ' ∉ tag ∧ '\x01' ∉ tag ∧
    '\x86' ∉ tag ∧ '\x10' ∉ tag ∧ '\x00' ∉ tag ∧ '\r' ∉ tag ∧ '\n' ∉ tag))

instance (d : Option Str) : Decidable (goodData d) :=
  match d with
  | none => isTrue trivial
  | some dd => inferInstanceAs (Decidable (dd ≠ [] ∧ '\x01' ∉ dd ∧
      '\x86' ∉ dd ∧ '\x10' ∉ dd ∧ '\x00' ∉ dd ∧ '\r' ∉ dd ∧ '\n' ∉ dd))

instance (pd : Str × Option Str) : Decidable (goodPair pd) :=
  inferInstanceAs (Decidable (goodTag pd.1 ∧ goodData pd.2))

theorem mem_body_cases (c : Char) (pd : Str × Option Str) (hg : goodPair pd)
    (h : c ∈ ctcp_body pd) :
    c = ' ' ∨ (c ≠ '\x01' ∧ c ≠ '\x86' ∧ c ≠ '\x10' ∧ c ≠ '\x00' ∧
      c ≠ '\r' ∧ c ≠ '\n') := by
  rcases mem_ctcp_body c pd h with h1 | h1 | ⟨d, hd, hcd⟩
  · obtain ⟨-, -, h01, h86, h10, h00, hr, hn⟩ := hg.1
    exact Or.inr ⟨fun e => h01 (e ▸ h1), fun e => h86 (e ▸ h1),
      fun e => h10 (e ▸ h1), fun e => h00 (e ▸ h1),
      fun e => hr (e ▸ h1), fun e => hn (e ▸ h1)⟩
  · exact Or.inl h1
  · have hgd := hg.2
    rw [hd] at hgd
    obtain ⟨-, h01, h86, h10, h00, hr, hn⟩ := hgd
    exact Or.inr ⟨fun e => h01 (e ▸ hcd), fun e => h86 (e ▸ hcd),
      fun e => h10 (e ▸ hcd), fun e => h00 (e ▸ hcd),
      fun e => hr (e ▸ hcd), fun e => hn (e ▸ hcd)⟩

/-- Under the side conditions the tag quoting is the identity on an
extended-message body. -/
theorem ctcp_quote_body_id (pd : Str × Option Str) (hg : goodPair pd) :
    ctcp_quote (ctcp_body pd) = ctcp_body pd := by
  refine pyQuote_id _ _ ?_
  intro c hc
  rcases mem_body_cases c pd hg hc with h | h
  · subst h
    decide
  · exact ctcp_quote_entry_none c ⟨h.1, h.2.1⟩

theorem ctcp_body_ne_nil (pd : Str × Option Str) (hg : goodPair pd) :
    ctcp_body pd ≠ [] := by
  rcases pd with ⟨tag, d⟩
  have htag : tag ≠ [] := hg.1.1
  cases d with
  | none => exact htag
  | some dd =>
    simp only [ctcp_body]
    by_cases hdd : dd.isEmpty
    · rw [if_pos hdd]; exact htag
    · rw [if_neg hdd]
      cases tag with
      | nil => exact absurd rfl htag
      | cons a tg => simp

/-- Decoding one odd chunk recovers the original `(tag, data)` pair. -/
theorem decode_body (pd : Str × Option Str) (hg : goodPair pd) :
    (match split1 DELIM (ctcp_dequote (ctcp_quote (ctcp_body pd))) with
      | some (tag, dat) => ((tag, some dat) : Str × Option Str)
      | none => (ctcp_dequote (ctcp_quote (ctcp_body pd)), none)) = pd := by
  rw [ctcp_quote_body_id pd hg]
  have hid : ctcp_dequote (ctcp_body pd) = ctcp_body pd := by
    refine pyDequote_id _ '\x86' ctcp_dequote_entry_none _ ?_
    intro c hc
    rcases mem_body_cases c pd hg hc with h | h
    · subst h; decide
    · exact h.2.1
  rw [hid]
  rcases pd with ⟨tag, d⟩
  have hsp : ' ' ∉ tag := hg.1.2.1
  cases d with
  | none =>
    show (match split1 DELIM tag with
      | some (tg, dat) => ((tg, some dat) : Str × Option Str)
      | none => (tag, none)) = (tag, none)
    rw [show split1 DELIM tag = none from split1_of_not_mem _ tag hsp]
  | some dd =>
    have hdd : dd ≠ [] := hg.2.1
    have hne : dd.isEmpty = false := by simpa [List.isEmpty_iff] using hdd
    show (match split1 DELIM (if dd.isEmpty then tag else tag ++ DELIM :: dd) with
      | some (tg, dat) => ((tg, some dat) : Str × Option Str)
      | none => _) = (tag, some dd)
    rw [hne]
    simp only [Bool.false_eq_true, if_false, DELIM]
    rw [split1_append ' ' tag dd hsp]

theorem ctcp_loop_chunks (ps : List (Str × Option Str))
    (hg : ∀ pd ∈ ps, goodPair pd) :
    ctcp_loop true (ctcp_chunks ps) = ([], ps) := by
  induction ps with
  | nil => rfl
  | cons pd rest ih =>
    have hpd := hg pd (List.mem_cons_self pd rest)
    have hmne : (ctcp_quote (ctcp_body pd)).isEmpty = false := by
      rw [ctcp_quote_body_id pd hpd]
      simpa [List.isEmpty_iff] using ctcp_body_ne_nil pd hpd
    show ctcp_loop true (ctcp_quote (ctcp_body pd) :: [] :: ctcp_chunks rest) =
      ([], pd :: rest)
    simp only [ctcp_loop, hmne, Bool.not_true, List.isEmpty_nil,
      Bool.false_eq_true, if_false, if_true, Bool.not_false]
    rw [ih (fun q hq => hg q (List.mem_cons_of_mem pd hq))]
    have := decode_body pd hpd
    simp only [this]

theorem filter_tokens (tokens : List Str) (h : ∀ tk ∈ tokens, tk ≠ []) :
    (tokens ++ [[]]).filter (fun x => !x.isEmpty) = tokens := by
  rw [List.filter_append]
  have h1 : List.filter (fun x => !x.isEmpty) [([] : Str)] = [] := rfl
  rw [h1, List.append_nil]
  refine List.filter_eq_self.mpr ?_
  intro a ha
  simpa [List.isEmpty_iff] using h a ha

theorem dropCRLF (X : Str) : (X ++ ['\r', '\n']).dropLast.dropLast = X := by
  rw [show X ++ ['\r', '\n'] = (X ++ ['\r']) ++ ['\n'] by simp,
    List.dropLast_concat, List.dropLast_concat]

/-- Side conditions on a plain token: non-empty, free of the separator,
the delimiter, the transport escape byte and the transport-quoted
control bytes. -/
def goodToken (tk : Str) : Prop :=
  tk ≠ [] ∧ ' ' ∉ tk ∧ '\x01' ∉ tk ∧ '\x10' ∉ tk ∧ '\x00' ∉ tk ∧
    '\r' ∉ tk ∧ '\n' ∉ tk

instance (tk : Str) : Decidable (goodToken tk) :=
  inferInstanceAs (Decidable (tk ≠ [] ∧ ' ' ∉ tk ∧ '\x01' ∉ tk ∧
    '\x10' ∉ tk ∧ '\x00' ∉ tk ∧ '\r' ∉ tk ∧ '\n' ∉ tk))

theorem wrap_char_good (ps : List (Str × Option Str))
    (hg : ∀ pd ∈ ps, goodPair pd) (c : Char) (hc : c ∈ ctcp_wrap ps) :
    c ≠ '\x10' ∧ low_quote_entry c = none := by
  rcases mem_ctcp_wrap c ps hc with h | ⟨pd, hpd, hcm⟩
  · subst h
    exact ⟨by decide, by decide⟩
  · rw [ctcp_quote_body_id pd (hg pd hpd)] at hcm
    rcases mem_body_cases c pd (hg pd hpd) hcm with h | h
    · subst h
      exact ⟨by decide, by decide⟩
    · exact ⟨h.2.2.1, low_quote_entry_none c ⟨h.2.2.2.1, h.2.2.2.2.2, h.2.2.2.2.1, h.2.2.1⟩⟩

/-- The CTCP decode of the line built by the CTCP encode (before the
line terminator is appended). -/
theorem ctcp_decode_line (cmd : Str) (tokens : List Str)
    (ps : List (Str × Option Str))
    (hc1 : ' ' ∉ cmd) (hc2 : cmd.head? ≠ some ':') (htne : tokens ≠ [])
    (htok : ∀ tk ∈ tokens, goodToken tk)
    (htail : ∀ tk ∈ tokens.tail, tk.head? ≠ some ':')
    (hg : ∀ pd ∈ ps, goodPair pd) :
    CTCPMessage_decode
        (irc_unsplit none cmd (tokens ++ [low_level_quote (ctcp_wrap ps)])) =
      some ([], cmd, tokens, ps) := by
  have hWid : low_level_quote (ctcp_wrap ps) = ctcp_wrap ps := by
    refine pyQuote_id _ _ ?_
    intro c hc
    exact (wrap_char_good ps hg c hc).2
  have hsplit : irc_split
      (irc_unsplit none cmd (tokens ++ [low_level_quote (ctcp_wrap ps)])) =
      some ([], cmd, tokens ++ [low_level_quote (ctcp_wrap ps)]) :=
    irc_split_unsplit cmd tokens _ hc1 hc2 htne
      (fun p hp => (htok p hp).2.1) htail
  have hplistne : (tokens ++ [low_level_quote (ctcp_wrap ps)]).isEmpty = false := by
    cases tokens with
    | nil => exact absurd rfl htne
    | cons a l => rfl
  have hjoin1 : joinChar DELIM (tokens ++ [low_level_quote (ctcp_wrap ps)]) =
      (joinChar ' ' tokens ++ [' ']) ++ ctcp_wrap ps := by
    rw [joinChar_concat DELIM tokens _ htne, hWid]
    simp [DELIM]
  rw [CTCPMessage_decode, hsplit, Option.map_some']
  simp only [hplistne, Bool.false_eq_true, if_false, hjoin1]
  have hdq : low_level_dequote ((joinChar ' ' tokens ++ [' ']) ++ ctcp_wrap ps) =
      (joinChar ' ' tokens ++ [' ']) ++ ctcp_wrap ps := by
    refine pyDequote_id _ '\x10' low_dequote_entry_none _ ?_
    intro c hc
    rcases List.mem_append.mp hc with h | h
    · rcases List.mem_append.mp h with h1 | h1
      · rcases mem_joinChar c ' ' tokens h1 with h2 | ⟨x, hx, hcx⟩
        · subst h2; decide
        · exact fun e => (htok x hx).2.2.2.1 (e ▸ hcx)
      · simp only [List.mem_singleton] at h1
        subst h1; decide
    · exact (wrap_char_good ps hg c h).1
  have hx01 : '\x01' ∉ joinChar ' ' tokens ++ [' '] := by
    intro hc
    rcases List.mem_append.mp hc with h1 | h1
    · rcases mem_joinChar _ ' ' tokens h1 with h2 | ⟨x, hx, hcx⟩
      · cases h2
      · exact (htok x hx).2.2.1 hcx
    · simp at h1
  have hm : ∀ pd ∈ ps, '\x01' ∉ ctcp_quote (ctcp_body pd) := by
    intro pd hpd hc
    rw [ctcp_quote_body_id pd (hg pd hpd)] at hc
    rcases mem_body_cases _ pd (hg pd hpd) hc with h | h
    · cases h
    · exact h.1 rfl
  have hune : (joinChar ' ' tokens ++ [' ']).isEmpty = false := by
    cases hJ : joinChar ' ' tokens with
    | nil => rfl
    | cons a l => rfl
  have hloop : ctcp_loop false
      ((joinChar ' ' tokens ++ [' ']) :: ctcp_chunks ps) = (tokens, ps) := by
    simp only [ctcp_loop, hune, Bool.false_eq_true, if_false, Bool.not_false]
    rw [ctcp_loop_chunks ps hg]
    have hsplitJ : splitAll DELIM (joinChar ' ' tokens ++ [' ']) =
        tokens ++ [[]] := by
      show splitAll ' ' (joinChar ' ' tokens ++ [' ']) = tokens ++ [[]]
      have hjc : joinChar ' ' tokens ++ [' '] = joinChar ' ' (tokens ++ [[]]) := by
        rw [joinChar_concat ' ' tokens [] htne]
      rw [hjc, splitAll_join ' ' (tokens ++ [[]]) (by simp) ?_]
      intro x hx
      rcases List.mem_append.mp hx with h | h
      · exact (htok x h).2.1
      · simp only [List.mem_singleton] at h
        simp [h]
    rw [hsplitJ, filter_tokens tokens (fun tk htk => (htok tk htk).1)]
    simp
  rw [hdq, splitAll_wrap _ ps hx01 hm, hloop]

/-! ## Claim theorems -/

/-- C1 (counterexample): the round trip `irc_split ∘ irc_unsplit` fails
as universally stated: the single-parameter message `("CMD", ["bob"])`
(no prefix, no space/NUL/CR/LF in any non-trailing parameter — there are
none) re-decodes with parameter list `[":bob"]`, not `["bob"]`, because
`irc_unsplit` renders the last parameter as `":bob"` and `irc_split`
only strips a trailing marker preceded by a separator. -/
theorem C1_roundtrip_cex :
    irc_split (irc_unsplit none "CMD".data ["bob".data]) =
      some ([], "CMD".data, [":bob".data]) ∧
    [":bob".data] ≠ ["bob".data] := by
  constructor
  · rfl
  · decide

/-- C1 (amended): for a message with no prefix (decoded as the empty
prefix), a space-free command not starting with `':'`, and at least two
parameters whose non-trailing entries contain no space, NUL, CR or LF
and of which none after the first starts with `':'`, decoding the
encoding returns the empty prefix, the same command and the same
parameter sequence. -/
theorem C1_roundtrip_amended (cmd : Str) (rs : List Str) (t : Str)
    (hc1 : ' ' ∉ cmd) (hc2 : cmd.head? ≠ some ':') (hrs : rs ≠ [])
    (hsp : ∀ p ∈ rs, ' ' ∉ p ∧ '\x00' ∉ p ∧ '\r' ∉ p ∧ '\n' ∉ p)
    (hcol : ∀ p ∈ rs.tail, p.head? ≠ some ':') :
    irc_split (irc_unsplit none cmd (rs ++ [t])) =
      some ([], cmd, rs ++ [t]) :=
  irc_split_unsplit cmd rs t hc1 hc2 hrs (fun p hp => (hsp p hp).1) hcol

/-- C1 (witness): the amended round trip at
`("PRIVMSG", ["#chan", "hello there"])`. -/
theorem C1_roundtrip_amended_witness :
    irc_split (irc_unsplit none "PRIVMSG".data
        ["#chan".data, "hello there".data]) =
      some ([], "PRIVMSG".data, ["#chan".data, "hello there".data]) :=
  C1_roundtrip_amended "PRIVMSG".data ["#chan".data] "hello there".data
    (by decide) (by decide) (by decide) (by decide) (by decide)

/-- C2: `dequote(quote(s)) = s` fails for both quoting layers.
`_quote` skips position 0 and `_dequote` keeps the escape byte while
replacing only the second byte of each escape pair, so
`low_level_dequote (low_level_quote "a\n") = "a\x10\n"` and
`ctcp_dequote (ctcp_quote "a\x01") = "a\x86\x01"`: the code contradicts
the claimed bijection (code bug — the quote tables clearly intend
reversible escaping). -/
theorem C2_quote_dequote_bug :
    low_level_dequote (low_level_quote ['a', '\n']) = ['a', '\x10', '\n'] ∧
    ['a', '\x10', '\n'] ≠ ['a', '\n'] ∧
    ctcp_dequote (ctcp_quote ['a', '\x01']) = ['a', '\x86', '\x01'] ∧
    ['a', '\x86', '\x01'] ≠ ['a', '\x01'] := by
  refine ⟨rfl, by decide, rfl, by decide⟩

/-- C3 (counterexample): the CTCP round trip fails as stated: with plain
token `"t"` (delimiter-free) and extended pair `("A B", "c")`, decoding
the encoding yields the pair `("A", "B c")` — the decoder splits the
body once on the first space, so a tag containing the separator is not
recovered. -/
theorem C3_roundtrip_cex :
    CTCPMessage_decode ((CTCPMessage_encode none "CMD".data ["t".data]
        [("A B".data, some "c".data)]).dropLast.dropLast) =
      some ([], "CMD".data, ["t".data], [("A".data, some "B c".data)]) ∧
    [(("A".data : Str), some "B c".data)] ≠ [("A B".data, some "c".data)] := by
  refine ⟨rfl, by decide⟩

/-- C3 (amended): for a message with no prefix, a space-free command not
starting with `':'`, a non-empty list of plain tokens — each non-empty
and free of the separator, the delimiter `0x01`, the transport escape
`0x10` and NUL/CR/LF, none after the first starting with `':'` — and
extended pairs whose tags are non-empty and free of separator, both
escape bytes, delimiter and control bytes, and whose data is either
absent or non-empty and free of the escape bytes, delimiter and control
bytes, decoding the encoding (line terminator stripped, as the receive
loop does) reproduces the same plain-token and extended-message
sequences. -/
theorem C3_roundtrip_amended (cmd : Str) (tokens : List Str)
    (ps : List (Str × Option Str))
    (hc1 : ' ' ∉ cmd) (hc2 : cmd.head? ≠ some ':') (htne : tokens ≠ [])
    (htok : ∀ tk ∈ tokens, goodToken tk)
    (htail : ∀ tk ∈ tokens.tail, tk.head? ≠ some ':')
    (hg : ∀ pd ∈ ps, goodPair pd) :
    CTCPMessage_decode
        ((CTCPMessage_encode none cmd tokens ps).dropLast.dropLast) =
      some ([], cmd, tokens, ps) := by
  rw [CTCPMessage_encode, dropCRLF]
  exact ctcp_decode_line cmd tokens ps hc1 hc2 htne htok htail hg

/-- C3 (witness): the amended round trip at
`("PRIVMSG", ["#chan"], [("ACTION", "waves")])`. -/
theorem C3_roundtrip_amended_witness :
    CTCPMessage_decode ((CTCPMessage_encode none "PRIVMSG".data
        ["#chan".data] [("ACTION".data, some "waves".data)]).dropLast.dropLast) =
      some ([], "PRIVMSG".data, ["#chan".data],
        [("ACTION".data, some "waves".data)]) :=
  C3_roundtrip_amended "PRIVMSG".data ["#chan".data]
    [("ACTION".data, some "waves".data)]
    (by decide) (by decide) (by decide) (by decide) (by decide) (by decide)

/-- C4 (counterexample): `encode(Message("NICK", ["bob"]))` is not
`"NICK bob\r\n"` — `irc_unsplit` always renders the last parameter with
the trailing marker. -/
theorem C4_encode_nick_cex :
    Message_encode none "NICK".data ["bob".data] ≠ "NICK bob\r\n".data := by
  decide

/-- C4 (amended): `encode(Message("NICK", ["bob"]))` is
`"NICK :bob\r\n"`: the single parameter is rendered as the trailing
parameter, preceded by the `':'` marker. -/
theorem C4_encode_nick :
    Message_encode none "NICK".data ["bob".data] = "NICK :bob\r\n".data := by
  rfl

/-- C5: decoding `"PING :abc123"` yields params `[":abc123"]`, not the
claimed `["abc123"]` — the trailing-marker search looks for
`" :"` in the tail after the command's separator has been consumed, so a
trailing parameter that is the only parameter keeps its `':'`.  The
claim (standard IRC trailing behaviour) states the evident intent; the
code keeps the colon (code bug). -/
theorem C5_ping_decode :
    irc_split "PING :abc123".data =
      some ([], "PING".data, [":abc123".data]) ∧
    [":abc123".data] ≠ ["abc123".data] := by
  refine ⟨rfl, by decide⟩

/-- C6: encoding never fails on a non-trailing parameter containing the
separator or a control byte — `irc_unsplit` performs no validation (the
checker `is_valid_param` exists but is never called) and silently emits
a corrupted frame: `["a b", "t"]` encodes to `"PRIVMSG a b :t"` which
re-decodes as three parameters, and a CR in a parameter is emitted
verbatim even though `is_valid_param` rejects it. -/
theorem C6_no_validation :
    irc_unsplit none "PRIVMSG".data ["a b".data, "t".data] =
      "PRIVMSG a b :t".data ∧
    irc_split "PRIVMSG a b :t".data =
      some ([], "PRIVMSG".data, ["a".data, "b".data, "t".data]) ∧
    is_valid_param "a\rb".data = false ∧
    irc_unsplit none "PRIVMSG".data ["a\rb".data, "t".data] =
      "PRIVMSG a\rb :t".data := by
  refine ⟨rfl, rfl, rfl, rfl⟩

/-- C7: every exit path of the nick setter clears the pending nick, and
on non-exceptional completion the confirmed nick is promoted to the
pending value as it stands after any mid-flight overrides (which may
differ from the requested nick). -/
theorem C7_nick_setter (raises : Bool) (mid : ClientState → ClientState)
    (s : ClientState) (new_nick : Str) :
    (nick_set raises mid s new_nick).2._new_nick = none ∧
    (raises = false →
      (nick_set raises mid s new_nick).2._nick =
        (mid { s with _new_nick := some new_nick })._new_nick) := by
  cases raises <;> simp [nick_set]

/-- C7 (witness): a concrete successful change from `"a"` to `"b"` with
no concurrent interference. -/
theorem C7_nick_setter_witness :
    (nick_set false id ⟨some ['a'], none⟩ ['b']).2._new_nick = none ∧
    (nick_set false id ⟨some ['a'], none⟩ ['b']).2._nick = some ['b'] :=
  ⟨(C7_nick_setter false id ⟨some ['a'], none⟩ ['b']).1,
   (C7_nick_setter false id ⟨some ['a'], none⟩ ['b']).2 rfl⟩

/-- C8 (counterexample): a rejection naming exactly the in-flight
pending nick does not lead to a rename: while changing `bob → alice`, a
rejection of `"alice"` cancels the change, and after the lock wait (the
setter completing, promoting the cancelled value) the re-validation
`bad == confirmed` fails (`"alice" ≠ "bob"`), so no rename is initiated
— contradicting the claim that such a rejection deterministically
advances to the next candidate. -/
theorem C8_nick_in_use_cex :
    nick_in_use "alice".data (fun st => ⟨st._new_nick, none⟩)
        ⟨some "bob".data, some "alice".data⟩ =
      (⟨some "bob".data, none⟩, none) ∧
    (none : Option Str) ≠ some (increment_nick "alice".data) := by
  refine ⟨rfl, by decide⟩

/-- C8 (amended): when stable, a rejection naming the confirmed nick —
still confirmed after re-acquiring the lock — initiates a rename to
`increment_nick` of it; a rejection naming any other nick (stable or
changing) causes no state change and no rename; when changing, a
rejection naming the pending nick cancels the change (pending :=
confirmed) and initiates a rename only if, after the lock wait, the
rejected name equals the confirmed nick. -/
theorem C8_nick_in_use_amended (bad : Str) (f : ClientState → ClientState)
    (s : ClientState) :
    (truthy s._new_nick = false → s._nick = some bad →
      (f s)._nick = some bad →
      nick_in_use bad f s = (f s, some (increment_nick bad))) ∧
    (truthy s._new_nick = false → s._nick ≠ some bad →
      nick_in_use bad f s = (s, none)) ∧
    (truthy s._new_nick = true → s._new_nick ≠ some bad →
      nick_in_use bad f s = (s, none)) ∧
    (truthy s._new_nick = true → s._new_nick = some bad →
      (f { s with _new_nick := s._nick })._nick ≠ some bad →
      nick_in_use bad f s = (f { s with _new_nick := s._nick }, none)) ∧
    (truthy s._new_nick = true → s._new_nick = some bad →
      (f { s with _new_nick := s._nick })._nick = some bad →
      nick_in_use bad f s =
        (f { s with _new_nick := s._nick }, some (increment_nick bad))) := by
  refine ⟨?_, ?_, ?_, ?_, ?_⟩
  · intro h1 h2 h3
    simp only [nick_in_use, h1, Bool.false_eq_true, if_false]
    rw [if_neg (not_not_intro h2.symm), if_neg (not_not_intro h3.symm)]
  · intro h1 h2
    simp only [nick_in_use, h1, Bool.false_eq_true, if_false]
    rw [if_pos (show some bad ≠ s._nick from fun e => h2 e.symm)]
  · intro h1 h2
    simp only [nick_in_use, h1, if_true]
    rw [if_pos (show some bad ≠ s._new_nick from fun e => h2 e.symm)]
  · intro h1 h2 h3
    simp only [nick_in_use, h1, if_true]
    rw [if_neg (not_not_intro h2.symm),
      if_pos (show some bad ≠ (f { s with _new_nick := s._nick })._nick from
        fun e => h3 e.symm)]
  · intro h1 h2 h3
    simp only [nick_in_use, h1, if_true]
    rw [if_neg (not_not_intro h2.symm), if_neg (not_not_intro h3.symm)]

/-- C8 (witness): stable client with nick `"bob"`: a rejection of
`"bob"` initiates a rename to `"bob1"`; a rejection of `"x"` is
ignored. -/
theorem C8_nick_in_use_amended_witness :
    nick_in_use "bob".data id ⟨some "bob".data, none⟩ =
      (⟨some "bob".data, none⟩, some "bob1".data) ∧
    nick_in_use "x".data id ⟨some "bob".data, none⟩ =
      (⟨some "bob".data, none⟩, none) := by
  constructor
  · have h := (C8_nick_in_use_amended "bob".data id
      ⟨some "bob".data, none⟩).1 rfl rfl rfl
    rw [h]
    decide
  · exact (C8_nick_in_use_amended "x".data id
      ⟨some "bob".data, none⟩).2.1 rfl (by decide)

/-- C9: shutdown is idempotent — once `stop()` has run, every later
invocation returns with the state unchanged, and the registered stop
callbacks are invoked exactly once (the invocation log after any number
of calls equals the log of the first call: the original log extended by
the handler set once). -/
theorem C9_stop_idempotent (s : StopState) :
    Client_stop (Client_stop s) = Client_stop s ∧
    (∀ n : Nat, Client_stop^[n + 1] s = Client_stop s) ∧
    (s.stopped = false →
      (Client_stop s).invoked = s.invoked ++ s.stop_handlers) := by
  have hidem : ∀ u : StopState, Client_stop (Client_stop u) = Client_stop u := by
    intro u
    by_cases hu : u.stopped
    · simp [Client_stop, hu]
    · simp [Client_stop, hu]
  refine ⟨hidem s, ?_, ?_⟩
  · intro n
    induction n with
    | zero => rfl
    | succ n ih =>
      rw [Function.iterate_succ_apply', ih, hidem s]
  · intro hs
    simp [Client_stop, hs]

/-- C9 (witness): a fresh client with two registered stop handlers:
stopping twice equals stopping once, and both handlers run exactly
once. -/
theorem C9_stop_idempotent_witness :
    Client_stop (Client_stop ⟨false, [0, 1], [], false, false, false⟩) =
      Client_stop ⟨false, [0, 1], [], false, false, false⟩ ∧
    (Client_stop ⟨false, [0, 1], [], false, false, false⟩).invoked = [0, 1] :=
  ⟨(C9_stop_idempotent ⟨false, [0, 1], [], false, false, false⟩).1,
   (C9_stop_idempotent ⟨false, [0, 1], [], false, false, false⟩).2.2 rfl⟩

/-- C10: when no nick change is in flight (`_new_nick = None`),
`matches_nick(None)` returns `True`, since the check is membership of
the candidate in the pair `(_nick, _new_nick)`. -/
theorem C10_matches_nick_none (s : ClientState) (h : s._new_nick = none) :
    matches_nick none s = true := by
  simp [matches_nick, h]

/-- C10 (witness): a stable client with nick `"bob"`. -/
theorem C10_matches_nick_none_witness :
    matches_nick none ⟨some "bob".data, none⟩ = true :=
  C10_matches_nick_none ⟨some "bob".data, none⟩ rfl

end GeventIrc
